import Mathlib

/-!
Verification development for the vizabi-reactive data-transformation core.

The definitions below are shallow embeddings of the JavaScript sources:
 - src/core/scale/baseScale.js (scale resolution engine)
 - src/core/scale/size.js (size-scale specialization)
 - the frame/animation encoding (playback state machine, step scale)
 - the dataframe gap interpolator
 - the dataframe order transform

JavaScript numbers are modelled as rationals (ℚ); `null`/`undefined` as
`Option.none`; objects holding named fields as structures.  Machine floats do
not occur in any verified property in an essential way: every property below
is about exact comparisons and exact linear arithmetic, which the sources
perform on values for which rational arithmetic is faithful.
-/

namespace Vizabi

/-- JavaScript `a < b` on possibly-undefined numbers: any comparison involving
`undefined` is false. -/
def jsLtOpt : Option ℚ → Option ℚ → Bool
  | some a, some b => decide (a < b)
  | _, _ => false

/-! ## Scale model (src/core/scale/baseScale.js) -/

/-- Configuration object of a scale, after `applyDefaults` with
`baseScale.js`'s `defaultConfig` (which fills every missing key with `null`).
`none` models JS `null`/`undefined`.  `config.domain` entries are modelled as
already-parsed rationals: `parseConfigValue` (concept-aware parsing, outside
this core) is the identity on numeric values. -/
structure ScaleConfig where
  type : Option String := none
  domain : Option (List ℚ) := none
  range : Option (List ℚ) := none
  zeroBaseline : Bool := false
  clamp : Bool := false
  allowedTypes : Option (List String) := none
deriving DecidableEq

/-- Concept metadata consumed by the scale resolver.  `scales` models
`JSON.parse(concept.scales)` (a list of preferred scale type names). -/
structure ConceptProps where
  scales : Option (List String) := none
  concept_type : Option String := none
deriving DecidableEq

/-- The slice of the data-config interface the scale reads:
`data.isConstant()`, `data.conceptProps`, `data.domain`. -/
structure ScaleData where
  isConstant : Bool := false
  conceptProps : Option ConceptProps := none
  domain : Option (List ℚ) := none
deriving DecidableEq

/-- Keys of the `scales` table in baseScale.js (the supported scale types). -/
def supportedScaleNames : List String :=
  ["linear", "log", "genericLog", "sqrt", "ordinal", "point", "band", "time"]

/-- Fallback branches of `scaleTypeNoGenLog` driven by `concept.concept_type`
(the last three `else if`/`else` branches). -/
def conceptTypeScale (ordinalScale : String) (concept : Option ConceptProps) : String :=
  match concept with
  | none => "linear"
  | some c =>
    match c.concept_type with
    | some ct =>
      if ct ∈ ["entity_domain", "entity_set", "string"] then ordinalScale
      else if ct = "time" then "time"
      else "linear"
    | none => "linear"

/-- The branch reading the concept's declared preferred scale list:
`concept && concept.scales && (scale = JSON.parse(concept.scales)[0]) && scales[scale]`.
An absent list, an empty list, or an unsupported first entry falls through to
the concept-type branches. -/
def conceptDeclaredScale (ordinalScale : String) (concept : Option ConceptProps) : String :=
  match concept with
  | some c =>
    match c.scales with
    | some (s :: _) =>
      if s ∈ supportedScaleNames then s else conceptTypeScale ordinalScale concept
    | _ => conceptTypeScale ordinalScale concept
  | none => conceptTypeScale ordinalScale concept

/-- `scaleTypeNoGenLog()` of baseScale.js: type inference before the
genericLog post-processing.  `ordinalScale` is the scale object's
`ordinalScale` property (`"ordinal"` for the base scale, `"point"` for size). -/
def scaleTypeNoGenLog (ordinalScale : String) (cfg : ScaleConfig) (data : ScaleData) : String :=
  if data.isConstant then ordinalScale
  else
    match cfg.type with
    | some t =>
      if t ∈ supportedScaleNames then t else conceptDeclaredScale ordinalScale data.conceptProps
    | none => conceptDeclaredScale ordinalScale data.conceptProps

/-- `isArrayOneSided` of baseScale.js.  The argument is `Option` so that the
JS `if (!array) return false` falsy check is representable; for a real array
of length < 2 `d3Array.min`/`max` may be undefined, in which case the JS
conjunction `min <= 0 && max >= 0` is false and the function returns true,
matching the `length < 2` early-true here. -/
def isArrayOneSided (arr : Option (List ℚ)) : Bool :=
  match arr with
  | none => false
  | some a =>
    if a.length < 2 then true
    else
      match a.min?, a.max? with
      | some mn, some mx => !(decide (mn ≤ 0) && decide (0 ≤ mx))
      | _, _ => true

/-- `isDiscrete()` of baseScale.js. -/
def isDiscrete (ordinalScale : String) (cfg : ScaleConfig) (data : ScaleData) : Bool :=
  let st := scaleTypeNoGenLog ordinalScale cfg data
  st = "ordinal" || st = "band" || st = "point"

/-- `d3Array.scan(list)` with the default ascending comparator: index of the
least element, first occurrence on ties; `none` on the empty array. -/
def scanIdx : List ℚ → Option Nat
  | [] => none
  | x :: xs =>
    match scanIdx xs with
    | none => some 0
    | some j => if xs.getD j 0 < x then some (j + 1) else some 0

/-- The `get domain()` getter of baseScale.js.  An explicitly configured
domain wins; otherwise the observed data domain, with the zeroBaseline
replacement of the element closest to zero when the scale is continuous and
the data domain is one-sided; otherwise the `[0,1]` default.  (On an empty
data domain `d3Array.scan` returns undefined and the JS assignment
`domain[undefined] = 0` leaves the array contents unchanged, modelled by the
`none => dd` branch.) -/
def domainGetter (ordinalScale : String) (cfg : ScaleConfig) (data : ScaleData) : List ℚ :=
  match cfg.domain with
  | some d => d
  | none =>
    match data.domain with
    | some dd =>
      if cfg.zeroBaseline && !(isDiscrete ordinalScale cfg data)
          && isArrayOneSided (some dd) then
        match scanIdx (dd.map (fun q => |q|)) with
        | some i => dd.set i 0
        | none => dd
      else dd
    | none => [0, 1]

/-- The scale type after the genericLog post-processing step of `get type()`:
a chosen `log` over a domain that is not one-sided becomes `genericLog`. -/
def inferredScaleType (ordinalScale : String) (cfg : ScaleConfig) (data : ScaleData) : String :=
  let st := scaleTypeNoGenLog ordinalScale cfg data
  if st = "log" && !(isArrayOneSided (some (domainGetter ordinalScale cfg data))) then
    "genericLog"
  else st

/-- The `get type()` getter of baseScale.js.  First component: the returned
type (`none` models the implicit `undefined` return after the warning).
Second component: whether the `console.warn` diagnostic was emitted.
JS note: a configured empty `allowedTypes` array is truthy, so it rejects
every type, which `some []` models. -/
def typeGetter (ordinalScale : String) (cfg : ScaleConfig) (data : ScaleData) :
    Option String × Bool :=
  let st := inferredScaleType ordinalScale cfg data
  match cfg.allowedTypes with
  | none => (some st, false)
  | some allowed => if st ∈ allowed then (some st, false) else (none, true)

/-- `clampToDomain(val)` of baseScale.js.  For discrete scales a non-member
maps to undefined (`none`); for continuous scales the value is clamped via
the JS comparisons `val < domain[0]` / `val > domain[1]` (both false when
either side is undefined). -/
def clampToDomain (ordinalScale : String) (cfg : ScaleConfig) (data : ScaleData)
    (val : Option ℚ) : Option ℚ :=
  let domain := domainGetter ordinalScale cfg data
  if isDiscrete ordinalScale cfg data then
    match val with
    | some v => if v ∈ domain then some v else none
    | none => none
  else
    if jsLtOpt val domain[0]? then domain[0]?
    else if jsLtOpt domain[1]? val then domain[1]?
    else val

/-! ## Size scale specialization (src/core/scale/size.js)

size.js builds on the base scale module (`./base`, not under src/); per the
spec there is a single scale resolver, so the parent's getters are the
baseScale.js embedding above. -/

/-- Modelled from the spec: `applyDefaults` (imported from `../utils`, not
under src/) fills each config key missing from the user's config with the
given default; this is the mechanism by which "type defaults to `sqrt`" works
through the `config.type` branch of type inference (spec 4.1 step 1), and it
fills `range` with size.js's `defaultConfig` entry `[0, 20]` the same way.
(A user config carrying an explicit `range: null` property would be skipped
by the JS `hasOwnProperty` check; the `Option` model conflates that exotic
case with the absent-key case.) -/
def sizeApplyDefaults (cfg : ScaleConfig) : ScaleConfig :=
  { cfg with
    type := match cfg.type with
      | some t => some t
      | none => some "sqrt"
    range := match cfg.range with
      | some r => some r
      | none => some [0, 20] }

/-- The `ordinalScale` property assigned by size.js. -/
def sizeOrdinalScale : String := "point"

/-- The `get range()` override of size.js, evaluated on the config as it
stands after `applyDefaults` has run. -/
def sizeRangeGetter (cfg : ScaleConfig) (data : ScaleData) : List ℚ :=
  match cfg.range with
  | some r => r
  | none =>
    if (typeGetter sizeOrdinalScale cfg data).1 = some "point" then [1, 20]
    else [0, 20]

/-- Resolved type of a size scale built from a raw user config. -/
def sizeType (cfg : ScaleConfig) (data : ScaleData) : Option String :=
  (typeGetter sizeOrdinalScale (sizeApplyDefaults cfg) data).1

/-- Resolved range of a size scale built from a raw user config. -/
def sizeRange (cfg : ScaleConfig) (data : ScaleData) : List ℚ :=
  sizeRangeGetter (sizeApplyDefaults cfg) data

/-! ## Lemmas about d3Array.scan -/

theorem scanIdx_cons_isSome (x : ℚ) (xs : List ℚ) : (scanIdx (x :: xs)).isSome := by
  simp only [scanIdx]
  split
  · simp
  · split <;> simp

theorem scanIdx_eq_none_iff (l : List ℚ) : scanIdx l = none ↔ l = [] := by
  cases l with
  | nil => simp [scanIdx]
  | cons x xs =>
    have h := scanIdx_cons_isSome x xs
    constructor
    · intro hc
      rw [hc] at h
      simp at h
    · intro hc
      exact absurd hc (List.cons_ne_nil x xs)

theorem scanIdx_spec (l : List ℚ) (i : Nat) (h : scanIdx l = some i) :
    i < l.length ∧ ∀ j, j < l.length → l.getD i 0 ≤ l.getD j 0 := by
  induction l generalizing i with
  | nil => simp [scanIdx] at h
  | cons x xs ih =>
    simp only [scanIdx] at h
    cases hxs : scanIdx xs with
    | none =>
      have hnil : xs = [] := (scanIdx_eq_none_iff xs).mp hxs
      rw [hxs] at h
      subst hnil
      simp only [Option.some.injEq] at h
      subst h
      refine ⟨by simp, ?_⟩
      intro j hj
      have hj0 : j = 0 := Nat.lt_one_iff.mp (by simpa using hj)
      subst hj0
      simp
    | some k =>
      rw [hxs] at h
      obtain ⟨hk, hmin⟩ := ih k hxs
      by_cases hlt : xs.getD k 0 < x
      · simp only [hlt, if_true, Option.some.injEq] at h
        subst h
        refine ⟨by simpa using Nat.succ_lt_succ hk, ?_⟩
        intro j hj
        cases j with
        | zero => simpa using le_of_lt hlt
        | succ m =>
          simp only [List.getD_cons_succ]
          exact hmin m (by simpa using hj)
      · simp only [hlt, if_false, Option.some.injEq] at h
        subst h
        refine ⟨by simp, ?_⟩
        intro j hj
        cases j with
        | zero => simp
        | succ m =>
          simp only [List.getD_cons_zero, List.getD_cons_succ]
          exact le_trans (not_lt.mp hlt) (hmin m (by simpa using hj))

/-! ## Claim theorems about the scale engine -/

/-- C9: evaluation of the size scale at the point-type, unconfigured-range
input.  The claim says an unconfigured range resolves to `[1, 20]` when the
resolved type is `point`; the code instead resolves `[0, 20]`, because
size.js's `defaultConfig` writes `range: [0, 20]` into the config, so the
`get range()` override's `this.config.range != null` test is always true and
its `point` branch is unreachable.  The other parts of the claim hold: the
type defaults to `sqrt` and the ordinal fallback is `point`. -/
theorem size_point_range_defaults_to_0_20 :
    sizeType {} { isConstant := true } = some "point"
    ∧ sizeRange {} { isConstant := true } = [0, 20]
    ∧ sizeRange {} { isConstant := true } ≠ [1, 20]
    ∧ sizeType {} { conceptProps := some { concept_type := some "measure" } } = some "sqrt"
    ∧ sizeOrdinalScale = "point" := by
  refine ⟨by decide, by decide, by decide, by decide, rfl⟩

/-- C8: if `allowedTypes` is configured and the inferred (post-processed)
type is not a member, `get type()` emits the diagnostic warning and returns
undefined; if `allowedTypes` is unset or contains the inferred type, the
inferred type is returned unchanged and no warning is emitted. -/
theorem typeGetter_allowedTypes_contract (ordinalScale : String) (cfg : ScaleConfig)
    (data : ScaleData) :
    (∀ allowed, cfg.allowedTypes = some allowed →
        inferredScaleType ordinalScale cfg data ∉ allowed →
        typeGetter ordinalScale cfg data = (none, true))
    ∧ (∀ allowed, cfg.allowedTypes = some allowed →
        inferredScaleType ordinalScale cfg data ∈ allowed →
        typeGetter ordinalScale cfg data =
          (some (inferredScaleType ordinalScale cfg data), false))
    ∧ (cfg.allowedTypes = none →
        typeGetter ordinalScale cfg data =
          (some (inferredScaleType ordinalScale cfg data), false)) := by
  refine ⟨?_, ?_, ?_⟩
  · intro allowed hal hmem
    simp [typeGetter, hal, hmem]
  · intro allowed hal hmem
    simp [typeGetter, hal, hmem]
  · intro hal
    simp [typeGetter, hal]

/-- Witness for C8 at a concrete input: inferred type `linear`, allowed list
`["log"]`, so the getter returns undefined and warns. -/
theorem typeGetter_allowedTypes_contract_witness :
    typeGetter "ordinal" { type := some "linear", allowedTypes := some ["log"] } {} =
      (none, true) :=
  (typeGetter_allowedTypes_contract "ordinal"
    { type := some "linear", allowedTypes := some ["log"] } {}).1 ["log"] rfl (by decide)

/-- C2 counterexample: a scale whose inferred type is `log` over the
zero-straddling domain `[-1, 2]` but with `allowedTypes = ["log"]` resolves
to undefined, not to `genericLog`, because the substituted `genericLog` is
then rejected by the allowedTypes check.  So the getter does not return
`genericLog` for *every* such scale. -/
theorem typeGetter_genericLog_blocked_by_allowedTypes :
    scaleTypeNoGenLog "ordinal" { type := some "log", allowedTypes := some ["log"] }
        { domain := some [-1, 2] } = "log"
    ∧ isArrayOneSided (some (domainGetter "ordinal"
        { type := some "log", allowedTypes := some ["log"] }
        { domain := some [-1, 2] })) = false
    ∧ (typeGetter "ordinal" { type := some "log", allowedTypes := some ["log"] }
        { domain := some [-1, 2] }).1 ≠ some "genericLog"
    ∧ (typeGetter "ordinal" { type := some "log", allowedTypes := some ["log"] }
        { domain := some [-1, 2] }).1 = none := by
  refine ⟨by decide, by decide, by decide, by decide⟩

/-- C2 (amended): whenever the inferred type is `log` and the resolved
domain is not one-sided, the post-processing substitutes `genericLog`; the
getter never returns raw `log`, and it returns `genericLog` whenever
`allowedTypes` is unset or admits `genericLog` (otherwise it returns
undefined per the allowedTypes rule).  One-sidedness is as the claim states:
arrays of length < 2 are one-sided, otherwise one-sided iff not
(min ≤ 0 and max ≥ 0). -/
theorem typeGetter_log_straddling_zero_becomes_genericLog
    (ordinalScale : String) (cfg : ScaleConfig) (data : ScaleData)
    (hlog : scaleTypeNoGenLog ordinalScale cfg data = "log")
    (hside : isArrayOneSided (some (domainGetter ordinalScale cfg data)) = false) :
    inferredScaleType ordinalScale cfg data = "genericLog"
    ∧ (typeGetter ordinalScale cfg data).1 ≠ some "log"
    ∧ (cfg.allowedTypes = none → (typeGetter ordinalScale cfg data).1 = some "genericLog")
    ∧ (∀ allowed, cfg.allowedTypes = some allowed → "genericLog" ∈ allowed →
        (typeGetter ordinalScale cfg data).1 = some "genericLog")
    ∧ (∀ l : List ℚ, l.length < 2 → isArrayOneSided (some l) = true)
    ∧ (∀ (l : List ℚ) (mn mx : ℚ), l.min? = some mn → l.max? = some mx →
        2 ≤ l.length → (isArrayOneSided (some l) = true ↔ ¬(mn ≤ 0 ∧ 0 ≤ mx))) := by
  have hinf : inferredScaleType ordinalScale cfg data = "genericLog" := by
    simp [inferredScaleType, hlog, hside]
  refine ⟨hinf, ?_, ?_, ?_, ?_, ?_⟩
  · cases hal : cfg.allowedTypes with
    | none => simp [typeGetter, hal, hinf]
    | some allowed =>
      simp only [typeGetter, hal, hinf]
      split <;> simp
  · intro hal
    simp [typeGetter, hal, hinf]
  · intro allowed hal hmem
    simp [typeGetter, hal, hinf, hmem]
  · intro l hl
    simp [isArrayOneSided, hl]
  · intro l mn mx hmn hmx hlen
    have hnl : ¬ l.length < 2 := Nat.not_lt.mpr hlen
    simp only [isArrayOneSided]
    rw [if_neg hnl]
    simp only [hmn, hmx]
    by_cases h0 : mn ≤ 0 <;> by_cases h1 : 0 ≤ mx <;> simp [h0, h1]

/-- Witness for the amended C2 at a concrete input: configured type `log`,
data domain `[-1, 2]` straddling zero, no allowedTypes restriction. -/
theorem typeGetter_log_straddling_zero_witness :
    inferredScaleType "ordinal" { type := some "log" } { domain := some [-1, 2] }
      = "genericLog"
    ∧ (typeGetter "ordinal" { type := some "log" } { domain := some [-1, 2] }).1
      ≠ some "log"
    ∧ (typeGetter "ordinal" { type := some "log" } { domain := some [-1, 2] }).1
      = some "genericLog" := by
  have h := typeGetter_log_straddling_zero_becomes_genericLog "ordinal"
    { type := some "log" } { domain := some [-1, 2] } (by decide) (by decide)
  exact ⟨h.1, h.2.1, h.2.2.1 rfl⟩

/-- C3: for a continuous scale with `zeroBaseline`, no configured domain and
a nonempty one-sided observed data domain, the resolved domain is the data
domain with the (first) element of least absolute value replaced by exactly
`0`; every other element and the length are unchanged.  (On an empty data
domain there is no element to replace; the code returns it unchanged.) -/
theorem domainGetter_zeroBaseline_replaces_closest_to_zero
    (ordinalScale : String) (cfg : ScaleConfig) (data : ScaleData) (dd : List ℚ)
    (hcd : cfg.domain = none) (hdd : data.domain = some dd) (hne : dd ≠ [])
    (hzb : cfg.zeroBaseline = true)
    (hdisc : isDiscrete ordinalScale cfg data = false)
    (hside : isArrayOneSided (some dd) = true) :
    ∃ i, i < dd.length
      ∧ domainGetter ordinalScale cfg data = dd.set i 0
      ∧ (domainGetter ordinalScale cfg data).length = dd.length
      ∧ (domainGetter ordinalScale cfg data)[i]? = some 0
      ∧ (∀ j, j ≠ i → (domainGetter ordinalScale cfg data)[j]? = dd[j]?)
      ∧ (∀ a : ℚ, dd[i]? = some a → ∀ (j : ℕ) (b : ℚ), dd[j]? = some b → |a| ≤ |b|) := by
  have hmapne : dd.map (fun q => |q|) ≠ [] := by
    simpa using hne
  obtain ⟨i, hi⟩ : ∃ i, scanIdx (dd.map (fun q => |q|)) = some i := by
    cases hscan : scanIdx (dd.map (fun q => |q|)) with
    | none => exact absurd ((scanIdx_eq_none_iff _).mp hscan) hmapne
    | some i => exact ⟨i, rfl⟩
  obtain ⟨hilen, hmin⟩ := scanIdx_spec _ _ hi
  rw [List.length_map] at hilen
  have hdg : domainGetter ordinalScale cfg data = dd.set i 0 := by
    simp only [domainGetter, hcd, hdd, hzb, hdisc, hside, Bool.not_false,
      Bool.and_true, Bool.true_and, if_true, hi]
  refine ⟨i, hilen, hdg, by simp [hdg], ?_, ?_, ?_⟩
  · rw [hdg]
    exact List.getElem?_set_self hilen
  · intro j hj
    rw [hdg]
    exact List.getElem?_set_ne (fun h => hj h.symm)
  · intro a ha j b hb
    have hjlen : j < dd.length := by
      by_contra hjl
      rw [List.getElem?_eq_none (Nat.le_of_not_lt hjl)] at hb
      exact Option.noConfusion hb
    have h1 := hmin j (by simpa using hjlen)
    have hga : (dd.map (fun q => |q|)).getD i 0 = |a| := by
      simp [List.getD, ha]
    have hgb : (dd.map (fun q => |q|)).getD j 0 = |b| := by
      simp [List.getD, hb]
    rw [hga, hgb] at h1
    exact h1

/-- Witness for C3: data domain `[3, 9]` (one-sided, positive) resolves to
`[0, 9]` under zeroBaseline. -/
theorem domainGetter_zeroBaseline_witness :
    ∃ i, i < ([3, 9] : List ℚ).length
      ∧ domainGetter "ordinal" { zeroBaseline := true, type := some "linear" }
          { domain := some [3, 9] } = ([3, 9] : List ℚ).set i 0
      ∧ (domainGetter "ordinal" { zeroBaseline := true, type := some "linear" }
          { domain := some [3, 9] }).length = ([3, 9] : List ℚ).length
      ∧ (domainGetter "ordinal" { zeroBaseline := true, type := some "linear" }
          { domain := some [3, 9] })[i]? = some 0
      ∧ (∀ j, j ≠ i → (domainGetter "ordinal" { zeroBaseline := true, type := some "linear" }
          { domain := some [3, 9] })[j]? = (([3, 9] : List ℚ))[j]?)
      ∧ (∀ a : ℚ, (([3, 9] : List ℚ))[i]? = some a →
          ∀ (j : ℕ) (b : ℚ), (([3, 9] : List ℚ))[j]? = some b → |a| ≤ |b|) :=
  domainGetter_zeroBaseline_replaces_closest_to_zero "ordinal"
    { zeroBaseline := true, type := some "linear" } { domain := some [3, 9] }
    [3, 9] rfl rfl (by decide) rfl (by decide) (by decide)

/-- C4 counterexample: `clampToDomain` is not idempotent for every scale the
code can build.  With a user-configured descending domain `[5, 1]` (the
getter passes config domains through unvalidated) and input `10`, one clamp
gives `1` (`10 > domain[1]`), but clamping again gives `5` (`1 < domain[0]`). -/
theorem clampToDomain_not_idempotent_on_descending_domain :
    clampToDomain "ordinal" { type := some "linear", domain := some [5, 1] } {}
        (some 10) = some 1
    ∧ clampToDomain "ordinal" { type := some "linear", domain := some [5, 1] } {}
        (clampToDomain "ordinal" { type := some "linear", domain := some [5, 1] } {}
          (some 10)) = some 5
    ∧ clampToDomain "ordinal" { type := some "linear", domain := some [5, 1] } {}
        (clampToDomain "ordinal" { type := some "linear", domain := some [5, 1] } {}
          (some 10))
      ≠ clampToDomain "ordinal" { type := some "linear", domain := some [5, 1] } {}
          (some 10) := by
  refine ⟨by decide, by decide, by decide⟩

/-- C4 (amended): `clampToDomain` is idempotent for discrete scales
unconditionally, and for continuous scales whenever the resolved domain's
first element is at most its second — the `[min, max]` shape the spec's data
model guarantees for continuous domains.  (A user-configured descending
domain such as `[5, 1]` is the only way to break this, see the
counterexample.) -/
theorem clampToDomain_idempotent (ordinalScale : String) (cfg : ScaleConfig)
    (data : ScaleData)
    (hord : isDiscrete ordinalScale cfg data = false →
      ∀ a b, (domainGetter ordinalScale cfg data)[0]? = some a →
        (domainGetter ordinalScale cfg data)[1]? = some b → a ≤ b)
    (v : Option ℚ) :
    clampToDomain ordinalScale cfg data (clampToDomain ordinalScale cfg data v)
      = clampToDomain ordinalScale cfg data v := by
  by_cases hd : isDiscrete ordinalScale cfg data = true
  · cases v with
    | none => simp [clampToDomain, hd]
    | some x =>
      by_cases hx : x ∈ domainGetter ordinalScale cfg data
      · simp [clampToDomain, hd, hx]
      · simp [clampToDomain, hd, hx]
  · have hd' : isDiscrete ordinalScale cfg data = false := by
      simpa using hd
    have hab := hord hd'
    simp only [clampToDomain, hd', Bool.false_eq_true, if_false]
    cases h0 : (domainGetter ordinalScale cfg data)[0]? with
    | none =>
      have h1 : (domainGetter ordinalScale cfg data)[1]? = none := by
        cases h1 : (domainGetter ordinalScale cfg data)[1]? with
        | none => rfl
        | some b =>
          have hlen : 1 < (domainGetter ordinalScale cfg data).length :=
            List.getElem?_eq_some_iff.mp h1 |>.choose
          have : (domainGetter ordinalScale cfg data)[0]? = none := h0
          rw [List.getElem?_eq_some_iff.mpr ⟨Nat.lt_of_le_of_lt (Nat.zero_le 1) hlen,
            rfl⟩] at this
          exact Option.noConfusion this
      cases v <;> simp [jsLtOpt, h0, h1]
    | some a =>
      cases h1 : (domainGetter ordinalScale cfg data)[1]? with
      | none =>
        cases v with
        | none => simp [jsLtOpt, h0, h1]
        | some x =>
          by_cases hlt : x < a
          · simp [jsLtOpt, h0, h1, hlt, lt_irrefl]
          · simp [jsLtOpt, h0, h1, hlt]
      | some b =>
        have hab' : a ≤ b := hab a b h0 h1
        cases v with
        | none => simp [jsLtOpt, h0, h1]
        | some x =>
          by_cases hlt : x < a
          · simp [jsLtOpt, h0, h1, hlt, lt_irrefl, not_lt.mpr hab']
          · by_cases hgt : b < x
            · simp [jsLtOpt, h0, h1, hlt, hgt, lt_irrefl, not_lt.mpr hab']
            · simp [jsLtOpt, h0, h1, hlt, hgt]

/-- Witness for the amended C4 at a concrete input: ascending domain
`[0, 10]`, value `42`. -/
theorem clampToDomain_idempotent_witness :
    clampToDomain "ordinal" { type := some "linear", domain := some [0, 10] } {}
      (clampToDomain "ordinal" { type := some "linear", domain := some [0, 10] } {}
        (some 42))
    = clampToDomain "ordinal" { type := some "linear", domain := some [0, 10] } {}
        (some 42) :=
  clampToDomain_idempotent "ordinal" { type := some "linear", domain := some [0, 10] } {}
    (fun _ a b ha hb => by
      have ha' : (0 : ℚ) = a := by simpa [domainGetter] using ha
      have hb' : (10 : ℚ) = b := by simpa [domainGetter] using hb
      rw [← ha', ← hb']
      norm_num)
    (some 42)

/-! ## Frame playback state machine (the frame encoding, src/unnamed/part_000)

The mutable playback state is `{ playing, immediate }` plus the current step.
In the source the step is stored indirectly (`setStep` writes
`stepScale.invert(step)` through `setValue` into `config.value`, and `step`
reads it back through `stepScale`); the embedding keeps the step directly,
which is faithful whenever the step scale round-trips on step indices (the
property verified separately for the step scale).  `stepCount` and steps are
JS numbers, modelled as ℚ. -/

structure FrameState where
  playing : Bool
  immediate : Bool
  step : ℚ
deriving DecidableEq

/-- `jumpToFirstFrame()`: `setStep(0); this.immediate = this.playing`. -/
def jumpToFirstFrame (s : FrameState) : FrameState :=
  { s with step := 0, immediate := s.playing }

/-- `stopPlaying()` via `setPlaying(false)`: sets `playing = false` (the
`if (playing)` body is skipped). -/
def stopPlaying (s : FrameState) : FrameState :=
  { s with playing := false }

/-- `nextStep()` of the frame encoding.  `fulfilled` models
`this.marker.state === FULFILLED`. -/
def nextStep (stepCount playbackSteps : ℚ) (loop fulfilled : Bool) (s : FrameState) :
    FrameState :=
  if s.playing && fulfilled then
    let s1 : FrameState := { s with immediate := false }
    let nxt : ℚ := s1.step + playbackSteps
    if nxt < stepCount then { s1 with step := nxt }
    else if s1.step = stepCount - 1 then
      if loop then jumpToFirstFrame s1 else stopPlaying s1
    else { s1 with step := stepCount - 1 }
  else s

/-- Intermediate playback progression: with `playbackSteps = 1` and any loop
flag, the first `stepCount - 1` ticks from step 0 walk one step at a time,
stay playing, and (after the first tick) have `immediate` cleared. -/
theorem nextStep_iterate_progress (n : ℕ) (loop : Bool) (imm : Bool) :
    ∀ k, k ≤ n - 1 →
      (nextStep (n : ℚ) 1 loop true)^[k] ⟨true, imm, 0⟩ =
        ⟨true, if k = 0 then imm else false, (k : ℚ)⟩ := by
  intro k
  induction k with
  | zero => intro _; simp
  | succ m ih =>
    intro hm
    have hm' : m ≤ n - 1 := Nat.le_of_succ_le hm
    have hmn : m + 1 < n := by omega
    rw [Function.iterate_succ_apply', ih hm']
    have hlt : (m : ℚ) + 1 < (n : ℚ) := by exact_mod_cast hmn
    simp [nextStep, hlt]

/-- C1: behavior of `nextStep`.  While `playing` and the marker fulfilled,
each call clears `immediate` and advances by `playbackSteps`: an in-range
advance moves there; at the last step it wraps to 0 when `loop` is set
(via `jumpToFirstFrame`, which then re-marks `immediate` because playback
continues) and stops playback otherwise; an overshoot lands exactly on the
last step.  Otherwise the call is a no-op.  Consequently, from step 0 with
`playbackSteps = 1` and `loop = false`, `stepCount - 1` calls reach the last
step still playing, and the next call stops playback on the last step; with
`loop = true` the same call instead wraps to step 0 without stopping. -/
theorem nextStep_playback_contract :
    (∀ (N p : ℚ) (loop fulfilled : Bool) (s : FrameState),
      (s.playing && fulfilled) = false → nextStep N p loop fulfilled s = s)
    ∧ (∀ (N p : ℚ) (loop : Bool) (s : FrameState), s.playing = true →
        s.step + p < N → nextStep N p loop true s = ⟨true, false, s.step + p⟩)
    ∧ (∀ (N p : ℚ) (s : FrameState), s.playing = true →
        ¬(s.step + p < N) → s.step = N - 1 →
        nextStep N p true true s = ⟨true, true, 0⟩)
    ∧ (∀ (N p : ℚ) (s : FrameState), s.playing = true →
        ¬(s.step + p < N) → s.step = N - 1 →
        nextStep N p false true s = ⟨false, false, N - 1⟩)
    ∧ (∀ (N p : ℚ) (loop : Bool) (s : FrameState), s.playing = true →
        ¬(s.step + p < N) → s.step ≠ N - 1 →
        nextStep N p loop true s = ⟨true, false, N - 1⟩)
    ∧ (∀ (n : ℕ), 1 ≤ n → ∀ imm : Bool,
        ((nextStep (n : ℚ) 1 false true)^[n - 1] ⟨true, imm, 0⟩).step = ((n : ℚ) - 1)
        ∧ ((nextStep (n : ℚ) 1 false true)^[n - 1] ⟨true, imm, 0⟩).playing = true
        ∧ (nextStep (n : ℚ) 1 false true)^[n] ⟨true, imm, 0⟩
            = ⟨false, false, (n : ℚ) - 1⟩
        ∧ (nextStep (n : ℚ) 1 true true)^[n] ⟨true, imm, 0⟩ = ⟨true, true, 0⟩) := by
  refine ⟨?_, ?_, ?_, ?_, ?_, ?_⟩
  · intro N p loop fulfilled s h
    simp [nextStep, h]
  · intro N p loop s hp hlt
    simp [nextStep, hp, hlt]
  · intro N p s hp hlt hlast
    rw [hlast] at hlt
    simp [nextStep, hp, hlt, hlast, jumpToFirstFrame]
  · intro N p s hp hlt hlast
    rw [hlast] at hlt
    simp [nextStep, hp, hlt, hlast, stopPlaying]
  · intro N p loop s hp hlt hlast
    simp [nextStep, hp, hlt, hlast]
  · intro n hn imm
    have hmid := nextStep_iterate_progress n false imm (n - 1) le_rfl
    have hmid' := nextStep_iterate_progress n true imm (n - 1) le_rfl
    have hcast : ((n - 1 : ℕ) : ℚ) = (n : ℚ) - 1 := by
      have : (1 : ℕ) ≤ n := hn
      push_cast [this]
      ring
    have hiter : ∀ (g : FrameState → FrameState) (x : FrameState),
        g^[n] x = g (g^[n - 1] x) := by
      intro g x
      conv_lhs => rw [show n = (n - 1) + 1 from by omega]
      rw [Function.iterate_succ_apply']
    have hnotlt : ¬((n : ℚ) - 1 + 1 < (n : ℚ)) := by norm_num
    refine ⟨by rw [hmid, hcast], by rw [hmid], ?_, ?_⟩
    · rw [hiter (nextStep (n : ℚ) 1 false true) ⟨true, imm, 0⟩, hmid, hcast]
      simp [nextStep, hnotlt, stopPlaying]
    · rw [hiter (nextStep (n : ℚ) 1 true true) ⟨true, imm, 0⟩, hmid', hcast]
      simp [nextStep, hnotlt, jumpToFirstFrame]

/-- Witness for C1 at `stepCount = 3`: three ticks from step 0 stop playback
on step 2; with `loop` the third tick wraps to step 0 still playing; a tick
while not playing is a no-op; an overshoot (`playbackSteps = 2` from step 0
with 3 steps) lands on the last step. -/
theorem nextStep_playback_contract_witness :
    nextStep 3 1 false false ⟨false, false, 1⟩ = ⟨false, false, 1⟩
    ∧ nextStep 3 1 false true ⟨true, false, 0⟩ = ⟨true, false, 1⟩
    ∧ nextStep 3 1 true true ⟨true, false, 2⟩ = ⟨true, true, 0⟩
    ∧ nextStep 3 1 false true ⟨true, false, 2⟩ = ⟨false, false, 2⟩
    ∧ nextStep 3 2 false true ⟨true, false, 1⟩ = ⟨true, false, 2⟩
    ∧ ((nextStep 3 1 false true)^[2] ⟨true, true, 0⟩).step = 2
    ∧ (nextStep 3 1 false true)^[3] ⟨true, true, 0⟩ = ⟨false, false, 2⟩
    ∧ (nextStep 3 1 true true)^[3] ⟨true, true, 0⟩ = ⟨true, true, 0⟩ := by
  obtain ⟨h1, h2, h3, h4, h5, h6⟩ := nextStep_playback_contract
  obtain ⟨g1, g2, g3, g4⟩ := h6 3 (by norm_num) true
  refine ⟨h1 3 1 false false ⟨false, false, 1⟩ (by decide),
    ?_, ?_, ?_, ?_, ?_, ?_, ?_⟩
  · have := h2 3 1 false ⟨true, false, 0⟩ rfl (by norm_num)
    simpa using this
  · have := h3 3 1 ⟨true, false, 2⟩ rfl (by norm_num) (by norm_num)
    simpa using this
  · have := h4 3 1 ⟨true, false, 2⟩ rfl (by norm_num) (by norm_num)
    simpa [show (3 : ℚ) - 1 = 2 from by norm_num] using this
  · have := h5 3 2 false ⟨true, false, 1⟩ rfl (by norm_num) (by norm_num)
    simpa [show (3 : ℚ) - 1 = 2 from by norm_num] using this
  · simpa [show (3 : ℚ) - 1 = 2 from by norm_num] using g1
  · simpa [show (3 : ℚ) - 1 = 2 from by norm_num] using g3
  · simpa using g4

/-! ## Step scale (frame encoding `get stepScale`)

`stepScale` is built by `this.scale.d3Type(this.domainValues, range)` with
`range = d3.range(0, stepCount)`: the d3 scale of the resolved type over the
ordered frame values as domain and the step indices `0 .. stepCount-1` as
range.  Modelled from the spec: `d3Type` (baseScale, not under src/) and the
d3-scale library itself are external; per spec 4.2 the step scale is the
value-to-index mapping over the ordered distinct frame values.  Two concrete
semantics are embedded: d3's piecewise-linear continuous map (`polymap`,
used by linear/time scales, which have a native `invert` built the same way
with domain and range swapped), and the ordinal first-index map, for which
the source synthesizes `invert` as `step => this.domainValues[step]`. -/

/-- d3-scale's piecewise linear mapping for an ascending knot list: segment
selection by bisection (clamped to the outer segments), then linear
interpolation within the segment.  `a` are the domain knots, `b` the range
knots.  A degenerate segment interpolates to the midpoint, as in d3's
`normalize`. -/
def polymap (a b : List ℚ) (x : ℚ) : ℚ :=
  let j := min a.length b.length - 1
  let i := min (j - 1) (a.countP (fun v => decide (v ≤ x)) - 1)
  let a0 := a.getD i 0
  let a1 := a.getD (i + 1) 0
  let b0 := b.getD i 0
  let b1 := b.getD (i + 1) 0
  let t := if a1 - a0 = 0 then 1 / 2 else (x - a0) / (a1 - a0)
  b0 + t * (b1 - b0)

theorem countP_le_knot (l : List ℚ) (hl : l.Pairwise (· < ·)) :
    ∀ k, k < l.length → l.countP (fun v => decide (v ≤ l.getD k 0)) = k + 1 := by
  induction l with
  | nil => intro k hk; simp at hk
  | cons x xs ih =>
    rcases List.pairwise_cons.mp hl with ⟨hhead, htail⟩
    intro k hk
    cases k with
    | zero =>
      simp only [List.getD_cons_zero, List.countP_cons]
      rw [List.countP_eq_zero.mpr (fun a ha => by simpa using not_le.mpr (hhead a ha))]
      simp
    | succ m =>
      have hm : m < xs.length := by simpa using hk
      have hmem : xs.getD m 0 ∈ xs := by
        rw [List.getD_eq_getElem xs 0 hm]
        exact List.getElem_mem hm
      simp only [List.getD_cons_succ, List.countP_cons]
      rw [ih htail m hm]
      have hle : x ≤ xs[m]?.getD 0 := by
        simpa using le_of_lt (hhead _ hmem)
      simp [hle]

/-- Knot exactness of the piecewise linear map: on a strictly increasing
domain it sends the k-th domain knot exactly to the k-th range knot. -/
theorem polymap_knot (a b : List ℚ) (ha : a.Pairwise (· < ·))
    (hlen : b.length = a.length) (h2 : 2 ≤ a.length) :
    ∀ k, k < a.length → polymap a b (a.getD k 0) = b.getD k 0 := by
  intro k hk
  have hstrict : ∀ (i j : ℕ) (hi : i < a.length) (hj : j < a.length), i < j →
      a.getD i 0 < a.getD j 0 := by
    intro i j hi hj hij
    rw [List.getD_eq_getElem a 0 hi, List.getD_eq_getElem a 0 hj]
    exact List.pairwise_iff_getElem.mp ha i j hi hj hij
  have hcount := countP_le_knot a ha k hk
  simp only [polymap, hlen, min_self, hcount, Nat.add_sub_cancel]
  by_cases hkl : k < a.length - 1
  · have hi : min (a.length - 1 - 1) k = k := by omega
    rw [hi]
    have hne : a.getD (k + 1) 0 - a.getD k 0 ≠ 0 :=
      sub_ne_zero_of_ne (ne_of_gt (hstrict k (k + 1) hk (by omega) (by omega)))
    rw [if_neg hne]
    field_simp
  · have hklast : k = a.length - 1 := by omega
    have hi : min (a.length - 1 - 1) k = a.length - 2 := by omega
    rw [hi]
    have h21 : a.length - 2 + 1 = a.length - 1 := by omega
    have hne : a.getD (a.length - 2 + 1) 0 - a.getD (a.length - 2) 0 ≠ 0 := by
      rw [h21]
      exact sub_ne_zero_of_ne
        (ne_of_gt (hstrict (a.length - 2) (a.length - 1) (by omega) (by omega) (by omega)))
    rw [if_neg hne, hklast, h21]
    have : (a.getD (a.length - 1) 0 - a.getD (a.length - 2) 0) /
        (a.getD (a.length - 1) 0 - a.getD (a.length - 2) 0) = 1 := by
      rw [div_self]
      rw [h21] at hne
      exact hne
    rw [this]
    ring

/-- `d3.range(0, stepCount)` as rationals: the range knots `0 .. n-1`. -/
def rangeList (n : ℕ) : List ℚ :=
  List.map Nat.cast (List.range n)

theorem rangeList_length (n : ℕ) : (rangeList n).length = n := by
  rw [rangeList, List.length_map, List.length_range]

theorem rangeList_pairwise (n : ℕ) : (rangeList n).Pairwise (· < ·) := by
  rw [rangeList, List.pairwise_map]
  exact (List.pairwise_lt_range n).imp (fun {i j} h => by exact_mod_cast h)

theorem rangeList_getD (n k : ℕ) (hk : k < n) : (rangeList n).getD k 0 = (k : ℚ) := by
  rw [rangeList, List.getD_eq_getElem _ 0 (by simpa using hk)]
  simp

/-- `stepScale` as a continuous (piecewise linear) d3 scale: frame values to
step indices. -/
def stepScaleApply (domainValues : List ℚ) (x : ℚ) : ℚ :=
  polymap domainValues (rangeList domainValues.length) x

/-- The native `invert` of a continuous d3 scale: the same piecewise map
with domain and range swapped. -/
def stepScaleInvert (domainValues : List ℚ) (y : ℚ) : ℚ :=
  polymap (rangeList domainValues.length) domainValues y

/-- A d3 ordinal scale with range `0 .. n-1`: maps a domain member to its
first index (unknown values excluded from the model). -/
def d3OrdinalIndex (domainValues : List ℚ) (x : ℚ) : Option ℕ :=
  if x ∈ domainValues then some (domainValues.indexOf x) else none

/-- The synthesized `invert` installed by `get stepScale` when the scale has
no native invert: `step => this.domainValues[step]`. -/
def synthesizedInvert (domainValues : List ℚ) (step : ℕ) : Option ℚ :=
  domainValues[step]?

/-- C5: step-scale round trip.  For the continuous step scale over strictly
increasing frame values, `stepScale(stepScale.invert(i)) = i` for every step
index `i`; for an ordinal step scale over distinct frame values, the
synthesized array-lookup invert followed by the scale yields `i` again. -/
theorem stepScale_roundtrip :
    (∀ (dv : List ℚ), dv.Pairwise (· < ·) → 2 ≤ dv.length →
      ∀ i : ℕ, i < dv.length → stepScaleApply dv (stepScaleInvert dv (i : ℚ)) = (i : ℚ))
    ∧ (∀ (dv : List ℚ), dv.Nodup →
      ∀ i : ℕ, i < dv.length →
        (synthesizedInvert dv i).bind (fun v => d3OrdinalIndex dv v) = some i) := by
  constructor
  · intro dv hsort h2 i hi
    have hinv : stepScaleInvert dv (i : ℚ) = dv.getD i 0 := by
      rw [stepScaleInvert, ← rangeList_getD dv.length i hi]
      exact polymap_knot (rangeList dv.length) dv (rangeList_pairwise _)
        (by rw [rangeList_length]) (by rw [rangeList_length]; exact h2) i
        (by rw [rangeList_length]; exact hi)
    rw [hinv, stepScaleApply]
    rw [polymap_knot dv (rangeList dv.length) hsort (rangeList_length _) h2 i hi]
    exact rangeList_getD dv.length i hi
  · intro dv hnd i hi
    have hget : synthesizedInvert dv i = some dv[i] :=
      List.getElem?_eq_some_iff.mpr ⟨hi, rfl⟩
    rw [hget, Option.some_bind]
    rw [d3OrdinalIndex, if_pos (List.getElem_mem hi)]
    rw [List.indexOf_getElem hnd i hi]

/-- Witness for C5 with frame values `[10, 20, 40]` and step index 2 for the
continuous scale, and `[5, 7]` with step index 1 for the ordinal scale. -/
theorem stepScale_roundtrip_witness :
    stepScaleApply [10, 20, 40] (stepScaleInvert [10, 20, 40] (2 : ℚ)) = (2 : ℚ)
    ∧ (synthesizedInvert [5, 7] 1).bind (fun v => d3OrdinalIndex [5, 7] v) = some 1 :=
  ⟨stepScale_roundtrip.1 [10, 20, 40] (by norm_num) (by norm_num) 2 (by norm_num),
   stepScale_roundtrip.2 [5, 7] (by norm_num) 1 (by norm_num)⟩

/-! ## Gap interpolator (dataframe interpolate, src/unnamed/part_001)

One field over one ordered record sequence.  A row is modelled by its object
identity (`id`), the field's value, and the provenance tag written under
`Symbol.for('interpolated')` for this field (the pair of bounding row
identities).  The imperative single pass (`evaluateGap` over each row,
mutating the pending gap in place) is rendered as the structurally recursive
`evalRows` over the remaining rows, carrying the `gap.start` row and the
pending `gap.rows` as state and emitting rows in their original order. -/

structure Row where
  id : ℕ
  value : Option ℚ
  interpProv : Option (ℕ × ℕ) := none
deriving DecidableEq

/-- `interpolateGap(gapRows, startRow, endRow, field)`: fills each gap row at
accumulated position `mu = (i+1) * delta`, `delta = 1/(gapRows.length+1)`,
with `d3.interpolate(startVal, endVal)(mu) = a + (b-a)*mu` (exact in ℚ, where
the JS accumulation `mu += delta` equals `(i+1)*delta`), and tags it with the
two bounding rows.  The source is only called with non-null bounding values;
the catch-all branch keeps the function total. -/
def interpolateGap (gapRows : List Row) (startRow endRow : Row) : List Row :=
  match startRow.value, endRow.value with
  | some a, some b =>
    gapRows.mapIdx fun i r =>
      { r with
        value := some (a + (b - a) * (((i : ℚ) + 1) / ((gapRows.length : ℚ) + 1))),
        interpProv := some (startRow.id, endRow.id) }
  | _, _ => gapRows

/-- The per-field pass: `evaluateGap(row, field, gap)` applied to each row in
order.  State: the last non-null row seen (`gap.start`) and the pending null
rows (`gap.rows`).  A null row is collected only once a start row exists
(leading nulls pass through untouched); a non-null row closes a non-empty
pending gap via `interpolateGap` and becomes the new start. -/
def evalRows : Option Row → List Row → List Row → List Row
  | _, gap, [] => gap
  | start, gap, r :: rest =>
    match r.value, start with
    | none, none => r :: evalRows none gap rest
    | none, some s => evalRows (some s) (gap ++ [r]) rest
    | some _, st =>
      (match st with
       | some s => interpolateGap gap s r
       | none => gap) ++ r :: evalRows (some r) [] rest

/-- `interpolateField(df, field)` restricted to the single modelled field:
the pass starts with no gap and no start row. -/
def interpolateField (rows : List Row) : List Row :=
  evalRows none [] rows

theorem evalRows_gap_close (ra rb : Row) (a b : ℚ)
    (_ha : ra.value = some a) (hb : rb.value = some b) :
    ∀ (gap acc rest : List Row), (∀ g ∈ gap, g.value = none) →
      evalRows (some ra) acc (gap ++ rb :: rest)
        = interpolateGap (acc ++ gap) ra rb ++ rb :: evalRows (some rb) [] rest := by
  intro gap
  induction gap with
  | nil =>
    intro acc rest _
    simp [evalRows, hb]
  | cons g gs ih =>
    intro acc rest hnull
    have hg : g.value = none := hnull g (List.mem_cons_self g gs)
    have hgs : ∀ g' ∈ gs, g'.value = none := fun g' hg' => hnull g' (List.mem_cons_of_mem g hg')
    have step : evalRows (some ra) acc ((g :: gs) ++ rb :: rest)
        = evalRows (some ra) (acc ++ [g]) (gs ++ rb :: rest) := by
      simp [evalRows, hg]
    rw [step, ih (acc ++ [g]) rest hgs, List.append_assoc]
    simp

theorem evalRows_all_null_some_start (s : Row) :
    ∀ (rows gap : List Row), (∀ r ∈ rows, r.value = none) →
      evalRows (some s) gap rows = gap ++ rows := by
  intro rows
  induction rows with
  | nil => intro gap _; simp [evalRows]
  | cons r rest ih =>
    intro gap hnull
    have hr : r.value = none := hnull r (List.mem_cons_self r rest)
    have hrest : ∀ x ∈ rest, x.value = none := fun x hx => hnull x (List.mem_cons_of_mem r hx)
    have step : evalRows (some s) gap (r :: rest) = evalRows (some s) (gap ++ [r]) rest := by
      simp [evalRows, hr]
    rw [step, ih (gap ++ [r]) hrest, List.append_assoc]
    simp

/-- C6: gap interpolation fills exactly the inner gaps.  A leading null row
(no start row yet) passes through untouched; a non-null row becomes the new
start; a run of nulls bounded by rows with values `a` and `b` is replaced by
linear interpolation at fractional positions `(i+1)/(gapSize+1)` and each
filled row is tagged with the bounding rows' identities as provenance for the
field; a sequence with no remaining non-null row (trailing nulls) is emitted
unchanged.  Concretely, `[1, null, null, 4]` becomes `[1, 2, 3, 4]` with both
filled rows tagged by the bounding rows, `[null, null, 5]` keeps its leading
nulls and `[1, null, null]` keeps its trailing nulls. -/
theorem interpolate_fills_inner_gaps :
    (∀ (r : Row) (rest : List Row), r.value = none →
      interpolateField (r :: rest) = r :: interpolateField rest)
    ∧ (∀ (r : Row) (rest : List Row) (v : ℚ), r.value = some v →
      interpolateField (r :: rest) = r :: evalRows (some r) [] rest)
    ∧ (∀ (ra rb : Row) (a b : ℚ) (gap rest : List Row),
      ra.value = some a → rb.value = some b → (∀ g ∈ gap, g.value = none) →
      evalRows (some ra) [] (gap ++ rb :: rest)
        = (gap.mapIdx fun i r =>
            { r with
              value := some (a + (b - a) * (((i : ℚ) + 1) / ((gap.length : ℚ) + 1))),
              interpProv := some (ra.id, rb.id) })
          ++ rb :: evalRows (some rb) [] rest)
    ∧ (∀ (s : Row) (gap rows : List Row), (∀ r ∈ rows, r.value = none) →
      evalRows (some s) gap rows = gap ++ rows)
    ∧ (∀ rows : List Row, (∀ r ∈ rows, r.value = none) →
      interpolateField rows = rows)
    ∧ interpolateField
        [⟨0, some 1, none⟩, ⟨1, none, none⟩, ⟨2, none, none⟩, ⟨3, some 4, none⟩]
      = [⟨0, some 1, none⟩, ⟨1, some 2, some (0, 3)⟩, ⟨2, some 3, some (0, 3)⟩,
         ⟨3, some 4, none⟩]
    ∧ interpolateField [⟨0, none, none⟩, ⟨1, none, none⟩, ⟨2, some 5, none⟩]
      = [⟨0, none, none⟩, ⟨1, none, none⟩, ⟨2, some 5, none⟩]
    ∧ interpolateField [⟨0, some 1, none⟩, ⟨1, none, none⟩, ⟨2, none, none⟩]
      = [⟨0, some 1, none⟩, ⟨1, none, none⟩, ⟨2, none, none⟩] := by
  refine ⟨?_, ?_, ?_, ?_, ?_,
    by norm_num [interpolateField, evalRows, interpolateGap, List.mapIdx_cons,
      List.mapIdx_nil],
    by decide, by decide⟩
  · intro r rest h
    simp [interpolateField, evalRows, h]
  · intro r rest v h
    simp [interpolateField, evalRows, h]
  · intro ra rb a b gap rest ha hb hnull
    rw [evalRows_gap_close ra rb a b ha hb gap [] rest hnull]
    simp [interpolateGap, ha, hb]
  · intro s gap rows hnull
    exact evalRows_all_null_some_start s rows gap hnull
  · intro rows hnull
    induction rows with
    | nil => rfl
    | cons r rest ih =>
      have hr : r.value = none := hnull r (List.mem_cons_self r rest)
      have hrest : ∀ x ∈ rest, x.value = none := fun x hx => hnull x (List.mem_cons_of_mem r hx)
      simp only [interpolateField, evalRows, hr]
      exact congrArg (r :: ·) (ih hrest)

/-- Witness for C6: the leading-null step applied at a concrete row, and the
gap-closing equation at the concrete gap `[1, null, null, 4]`. -/
theorem interpolate_fills_inner_gaps_witness :
    interpolateField [⟨7, none, none⟩, ⟨8, some 2, none⟩]
      = (⟨7, none, none⟩ : Row) :: interpolateField [⟨8, some 2, none⟩]
    ∧ evalRows (some ⟨0, some 1, none⟩) []
        (([⟨1, none, none⟩, ⟨2, none, none⟩] : List Row) ++ (⟨3, some 4, none⟩ : Row) :: [])
      = (([⟨1, none, none⟩, ⟨2, none, none⟩] : List Row).mapIdx fun i r =>
          { r with
            value := some (1 + (4 - 1) * (((i : ℚ) + 1) /
              ((([⟨1, none, none⟩, ⟨2, none, none⟩] : List Row).length : ℚ) + 1))),
            interpProv := some (0, 3) })
        ++ (⟨3, some 4, none⟩ : Row) :: evalRows (some ⟨3, some 4, none⟩) [] [] :=
  ⟨interpolate_fills_inner_gaps.1 ⟨7, none, none⟩ [⟨8, some 2, none⟩] rfl,
   interpolate_fills_inner_gaps.2.2.1 ⟨0, some 1, none⟩ ⟨3, some 4, none⟩ 1 4
     [⟨1, none, none⟩, ⟨2, none, none⟩] [] rfl rfl (by decide)⟩

/-! ## Record ordering (dataframe order transform, src/unnamed/part_002)

A dataframe entry is a `[key, record]` pair; the comparator reads
`a[1][order.concept]`.  Records are field-to-number maps, modelled as
association lists; a missing field reads as `undefined`, and the JS
comparisons `<`/`>` on `undefined` are both false, so such keys tie and fall
through.  `Array.prototype.sort` is a stable sort (ES2019); it is modelled
by the stable `List.mergeSort`. -/

abbrev Record := List (String × ℚ)

/-- One normalized order entry `{ concept, direction }` with direction
`1`/`-1` (the `directions` table; note the source's misspelled `decending`
key). -/
structure OrderKey where
  concept : String
  direction : Int
deriving DecidableEq

/-- One raw `order_by` entry: a plain string, or the object form
`{ concept: directionString }` (first key and its value). -/
inductive OrderPart where
  | field : String → OrderPart
  | pair : String → String → OrderPart
deriving DecidableEq

/-- `normalizeOrder(order_by)`: a plain string sorts ascending; an object
entry is ascending exactly when its direction string is `"asc"`, anything
else (including `"ascending"`) maps to descending. -/
def normalizeOrder (order_by : List OrderPart) : List OrderKey :=
  order_by.map fun
    | .field s => ⟨s, 1⟩
    | .pair c d => ⟨c, if d = "asc" then 1 else -1⟩

/-- The comparator body of `order`: walk the normalized keys, return
`-direction`/`direction` at the first key where the field values compare,
`0` when every key ties. -/
def cmpRecords (ord : List OrderKey) (a b : Record) : Int :=
  match ord with
  | [] => 0
  | o :: rest =>
    if jsLtOpt (a.lookup o.concept) (b.lookup o.concept) then -1 * o.direction
    else if jsLtOpt (b.lookup o.concept) (a.lookup o.concept) then o.direction
    else cmpRecords rest a b

/-- The comparator as a sort relation on `[key, record]` entries: "sorts not
after", i.e. the comparator is ≤ 0. -/
def recordLe (ord : List OrderKey) (a b : String × Record) : Bool :=
  decide (cmpRecords ord a.2 b.2 ≤ 0)

/-- `order(df, order_by)`: identity for an empty key list, else a stable
sort of the entries by the normalized comparator. -/
def order (df : List (String × Record)) (order_by : List OrderPart) :
    List (String × Record) :=
  if order_by.isEmpty then df
  else df.mergeSort (recordLe (normalizeOrder order_by))

theorem jsLtOpt_asymm {x y : Option ℚ} (h : jsLtOpt x y = true) : jsLtOpt y x = false := by
  cases x with
  | none => simp [jsLtOpt] at h
  | some a =>
    cases y with
    | none => simp [jsLtOpt] at h
    | some b =>
      simp only [jsLtOpt, decide_eq_true_eq] at h
      simp [jsLtOpt, not_lt.mpr (le_of_lt h)]

theorem cmpRecords_anti (ord : List OrderKey) (a b : Record) :
    cmpRecords ord b a = -cmpRecords ord a b := by
  induction ord with
  | nil => simp [cmpRecords]
  | cons o rest ih =>
    by_cases h1 : jsLtOpt (a.lookup o.concept) (b.lookup o.concept) = true
    · have h2 := jsLtOpt_asymm h1
      simp [cmpRecords, h1, h2]
    · by_cases h2 : jsLtOpt (b.lookup o.concept) (a.lookup o.concept) = true
      · simp [cmpRecords, h1, h2]
      · simp only [cmpRecords, h1, h2, Bool.false_eq_true, if_false]
        exact ih

theorem recordLe_total (ord : List OrderKey) (a b : String × Record) :
    (recordLe ord a b || recordLe ord b a) = true := by
  simp only [recordLe, Bool.or_eq_true, decide_eq_true_eq]
  have h := cmpRecords_anti ord a.2 b.2
  omega

/-- Completeness of a record for the normalized keys: every ordered field is
present.  (With absent fields the JS comparator is not transitive, and the
sort order is implementation-defined.) -/
def keyComplete (ord : List OrderKey) (r : Record) : Prop :=
  ∀ o ∈ ord, (r.lookup o.concept).isSome

theorem cmpRecords_cons_some (o : OrderKey) (rest : List OrderKey) (a b : Record)
    (va vb : ℚ) (hva : a.lookup o.concept = some va) (hvb : b.lookup o.concept = some vb) :
    cmpRecords (o :: rest) a b =
      if va < vb then -1 * o.direction
      else if vb < va then o.direction
      else cmpRecords rest a b := by
  simp [cmpRecords, hva, hvb, jsLtOpt]

theorem normalizeOrder_direction (ob : List OrderPart) :
    ∀ o ∈ normalizeOrder ob, o.direction = 1 ∨ o.direction = -1 := by
  intro o ho
  rw [normalizeOrder, List.mem_map] at ho
  obtain ⟨p, _, hp⟩ := ho
  cases p with
  | field s => left; rw [← hp]
  | pair c d =>
    rw [← hp]
    by_cases hd : d = "asc"
    · left; simp [hd]
    · right; simp [hd]

theorem cmpRecords_trans (ord : List OrderKey)
    (hdir : ∀ o ∈ ord, o.direction = 1 ∨ o.direction = -1) :
    ∀ (a b c : Record), keyComplete ord a → keyComplete ord b → keyComplete ord c →
      cmpRecords ord a b ≤ 0 → cmpRecords ord b c ≤ 0 → cmpRecords ord a c ≤ 0 := by
  induction ord with
  | nil => intro a b c _ _ _ _ _; simp [cmpRecords]
  | cons o rest ih =>
    intro a b c hca hcb hcc hab hbc
    obtain ⟨va, hva⟩ := Option.isSome_iff_exists.mp (hca o (List.mem_cons_self o rest))
    obtain ⟨vb, hvb⟩ := Option.isSome_iff_exists.mp (hcb o (List.mem_cons_self o rest))
    obtain ⟨vc, hvc⟩ := Option.isSome_iff_exists.mp (hcc o (List.mem_cons_self o rest))
    have hca' : keyComplete rest a := fun k hk => hca k (List.mem_cons_of_mem o hk)
    have hcb' : keyComplete rest b := fun k hk => hcb k (List.mem_cons_of_mem o hk)
    have hcc' : keyComplete rest c := fun k hk => hcc k (List.mem_cons_of_mem o hk)
    have hdir' : ∀ k ∈ rest, k.direction = 1 ∨ k.direction = -1 :=
      fun k hk => hdir k (List.mem_cons_of_mem o hk)
    rw [cmpRecords_cons_some o rest a b va vb hva hvb] at hab
    rw [cmpRecords_cons_some o rest b c vb vc hvb hvc] at hbc
    rw [cmpRecords_cons_some o rest a c va vc hva hvc]
    rcases hdir o (List.mem_cons_self o rest) with hd | hd <;> rw [hd] at hab hbc ⊢
    · rcases lt_trichotomy va vb with h1 | h1 | h1
      · rcases lt_trichotomy vb vc with h2 | h2 | h2
        · rw [if_pos (h1.trans h2)]
          omega
        · subst h2
          rw [if_pos h1]
          omega
        · rw [if_neg (asymm h2), if_pos h2] at hbc
          omega
      · subst h1
        rcases lt_trichotomy va vc with h2 | h2 | h2
        · rw [if_pos h2]
          omega
        · subst h2
          rw [if_neg (lt_irrefl va), if_neg (lt_irrefl va)] at hab hbc ⊢
          exact ih hdir' a b c hca' hcb' hcc' hab hbc
        · rw [if_neg (asymm h2), if_pos h2] at hbc
          omega
      · rw [if_neg (asymm h1), if_pos h1] at hab
        omega
    · rcases lt_trichotomy va vb with h1 | h1 | h1
      · rw [if_pos h1] at hab
        omega
      · subst h1
        rcases lt_trichotomy va vc with h2 | h2 | h2
        · rw [if_pos h2] at hbc
          omega
        · subst h2
          rw [if_neg (lt_irrefl va), if_neg (lt_irrefl va)] at hab hbc ⊢
          exact ih hdir' a b c hca' hcb' hcc' hab hbc
        · rw [if_neg (asymm h2), if_pos h2]
          omega
      · rcases lt_trichotomy vb vc with h2 | h2 | h2
        · rw [if_pos h2] at hbc
          omega
        · subst h2
          rw [if_neg (asymm h1), if_pos h1]
          omega
        · have h3 : vc < va := h2.trans h1
          rw [if_neg (asymm h3), if_pos h3]
          omega

/-- The entries of a dataframe bundled with the completeness of their
records for the normalized keys, so the comparator restricted to them is a
total preorder. -/
def completeEntries (no : List OrderKey) (df : List (String × Record))
    (hcomp : ∀ x ∈ df, keyComplete no x.2) :
    List {x : String × Record // keyComplete no x.2} :=
  df.attach.map (fun z => ⟨z.1, hcomp z.1 z.2⟩)

theorem completeEntries_map_val (no : List OrderKey) (df : List (String × Record))
    (hcomp : ∀ x ∈ df, keyComplete no x.2) :
    (completeEntries no df hcomp).map Subtype.val = df := by
  rw [completeEntries, List.map_map]
  exact List.attach_map_subtype_val df

theorem recordLe_lift_trans (ob : List OrderPart) :
    ∀ (x y z : {x : String × Record // keyComplete (normalizeOrder ob) x.2}),
      recordLe (normalizeOrder ob) x.1 y.1 → recordLe (normalizeOrder ob) y.1 z.1 →
      recordLe (normalizeOrder ob) x.1 z.1 := by
  intro x y z hxy hyz
  simp only [recordLe, decide_eq_true_eq] at hxy hyz ⊢
  exact cmpRecords_trans (normalizeOrder ob) (normalizeOrder_direction ob)
    x.1.2 y.1.2 z.1.2 x.2 y.2 z.2 hxy hyz

theorem mergeSort_map_completeEntries (ob : List OrderPart)
    (df : List (String × Record))
    (hcomp : ∀ x ∈ df, keyComplete (normalizeOrder ob) x.2) :
    ((completeEntries (normalizeOrder ob) df hcomp).mergeSort
        (fun x y => recordLe (normalizeOrder ob) x.1 y.1)).map Subtype.val
      = df.mergeSort (recordLe (normalizeOrder ob)) := by
  have h1 := @List.map_mergeSort
    {x : String × Record // keyComplete (normalizeOrder ob) x.2} (String × Record)
    (fun x y => recordLe (normalizeOrder ob) x.1 y.1) (recordLe (normalizeOrder ob))
    Subtype.val (completeEntries (normalizeOrder ob) df hcomp)
    (fun a _ b _ => rfl)
  rw [h1, completeEntries_map_val]

theorem order_sorted_aux (ob : List OrderPart) (df : List (String × Record))
    (hcomp : ∀ x ∈ df, keyComplete (normalizeOrder ob) x.2) :
    (df.mergeSort (recordLe (normalizeOrder ob))).Pairwise
      (fun x y => cmpRecords (normalizeOrder ob) x.2 y.2 ≤ 0) := by
  have hsorted := List.sorted_mergeSort (recordLe_lift_trans ob)
    (fun x y => recordLe_total (normalizeOrder ob) x.1 y.1)
    (completeEntries (normalizeOrder ob) df hcomp)
  have hmapped := List.Pairwise.map (Subtype.val)
    (S := fun x y => cmpRecords (normalizeOrder ob) x.2 y.2 ≤ 0)
    (fun a b hab => by simpa [recordLe] using hab) hsorted
  rw [mergeSort_map_completeEntries ob df hcomp] at hmapped
  exact hmapped

theorem order_stable_aux (ob : List OrderPart) (df : List (String × Record))
    (x y : String × Record)
    (hcomp : ∀ r ∈ df, keyComplete (normalizeOrder ob) r.2)
    (hsub : List.Sublist [x, y] df)
    (htie : cmpRecords (normalizeOrder ob) x.2 y.2 = 0) :
    List.Sublist [x, y] (df.mergeSort (recordLe (normalizeOrder ob))) := by
  have hmapdf := completeEntries_map_val (normalizeOrder ob) df hcomp
  rw [← hmapdf] at hsub
  obtain ⟨c, hcsub, hcmap⟩ := List.sublist_map_iff.mp hsub
  match c, hcmap with
  | [xc, yc], hcmap =>
    simp only [List.map_cons, List.map_nil, List.cons.injEq, and_true] at hcmap
    obtain ⟨hx, hy⟩ := hcmap
    have hpair : List.Pairwise
        (fun u v => recordLe (normalizeOrder ob) u.1 v.1 = true) [xc, yc] := by
      refine List.pairwise_pair.mpr ?_
      simp only [recordLe, decide_eq_true_eq]
      rw [hx, hy] at htie
      omega
    have hstep := List.sublist_mergeSort (recordLe_lift_trans ob)
      (fun u v => recordLe_total (normalizeOrder ob) u.1 v.1) hpair hcsub
    have hfinal := hstep.map Subtype.val
    rw [mergeSort_map_completeEntries ob df hcomp] at hfinal
    simpa [← hx, ← hy] using hfinal

/-- C7: `order` is a stable lexicographic sort.  The output is a permutation
of the input; when every sorted field is present on every record (absent
fields make the JS comparator intransitive and the sort order unspecified),
the output is pairwise ordered by the lexicographic comparator, and any two
entries whose compared fields all tie keep their original relative order.
Concretely, sorting `[a:2], [a:1,b:7], [a:1,b:8]` by `a` ascending yields the
two `a:1` records first, in their original order. -/
theorem order_stable_lexicographic_sort :
    (∀ (df : List (String × Record)) (ob : List OrderPart), (order df ob).Perm df)
    ∧ (∀ (df : List (String × Record)) (ob : List OrderPart),
        (∀ x ∈ df, keyComplete (normalizeOrder ob) x.2) →
        (order df ob).Pairwise
          (fun x y => cmpRecords (normalizeOrder ob) x.2 y.2 ≤ 0))
    ∧ (∀ (df : List (String × Record)) (ob : List OrderPart) (x y : String × Record),
        (∀ r ∈ df, keyComplete (normalizeOrder ob) r.2) →
        List.Sublist [x, y] df → cmpRecords (normalizeOrder ob) x.2 y.2 = 0 →
        List.Sublist [x, y] (order df ob))
    ∧ order [("k1", [("a", 2)]), ("k2", [("a", 1), ("b", 7)]),
        ("k3", [("a", 1), ("b", 8)])] [.field "a"]
      = [("k2", [("a", 1), ("b", 7)]), ("k3", [("a", 1), ("b", 8)]),
        ("k1", [("a", 2)])] := by
  refine ⟨?_, ?_, ?_, ?_⟩
  · intro df ob
    by_cases hne : ob.isEmpty
    · rw [order, if_pos hne]
    · rw [order, if_neg hne]
      exact List.mergeSort_perm df _
  · intro df ob hcomp
    by_cases hne : ob.isEmpty
    · rw [order, if_pos hne]
      exact List.pairwise_iff_getElem.mpr (fun i j hi hj hij => by
        rw [List.isEmpty_iff.mp hne]
        simp [normalizeOrder, cmpRecords])
    · rw [order, if_neg hne]
      exact order_sorted_aux ob df hcomp
  · intro df ob x y hcomp hsub htie
    by_cases hne : ob.isEmpty
    · rw [order, if_pos hne]
      exact hsub
    · rw [order, if_neg hne]
      exact order_stable_aux ob df x y hcomp hsub htie
  · norm_num [order, List.mergeSort, List.merge, recordLe, cmpRecords,
      normalizeOrder, jsLtOpt, List.lookup]

/-- Witness for C7: the sorted and stability conjuncts applied at the
concrete three-record example. -/
theorem order_stable_lexicographic_sort_witness :
    (order [("k1", [("a", 2)]), ("k2", [("a", 1), ("b", 7)]),
        ("k3", [("a", 1), ("b", 8)])] [.field "a"]).Pairwise
      (fun x y => cmpRecords (normalizeOrder [.field "a"]) x.2 y.2 ≤ 0)
    ∧ List.Sublist [("k2", ([("a", 1), ("b", 7)] : Record)), ("k3", [("a", 1), ("b", 8)])]
        (order [("k1", [("a", 2)]), ("k2", [("a", 1), ("b", 7)]),
          ("k3", [("a", 1), ("b", 8)])] [.field "a"]) :=
  ⟨order_stable_lexicographic_sort.2.1
      [("k1", [("a", 2)]), ("k2", [("a", 1), ("b", 7)]), ("k3", [("a", 1), ("b", 8)])]
      [.field "a"]
      (by
        intro x hx o ho
        simp only [normalizeOrder, List.map_cons, List.map_nil, List.mem_singleton] at ho
        subst ho
        fin_cases hx <;> decide),
   order_stable_lexicographic_sort.2.2.1
      [("k1", [("a", 2)]), ("k2", [("a", 1), ("b", 7)]), ("k3", [("a", 1), ("b", 8)])]
      [.field "a"] ("k2", [("a", 1), ("b", 7)]) ("k3", [("a", 1), ("b", 8)])
      (by
        intro x hx o ho
        simp only [normalizeOrder, List.map_cons, List.map_nil, List.mem_singleton] at ho
        subst ho
        fin_cases hx <;> decide)
      (by
        refine List.Sublist.cons _ ?_
        exact List.Sublist.cons₂ _ (List.Sublist.cons₂ _ (List.nil_sublist _)))
      (by decide)⟩

/-- C10: direction normalization.  An object-form entry is ascending
(direction `1`) exactly when its direction string equals `"asc"`; every
other string — including the full word `"ascending"` — yields descending
(direction `-1`); a plain-string entry is always ascending.  Behaviorally,
sorting two records by `a: "ascending"` puts the larger `a` first, while the
plain-string form sorts ascending. -/
theorem normalizeOrder_asc_only :
    (∀ (parts : List OrderPart) (i : ℕ) (c d : String),
        parts[i]? = some (.pair c d) →
        (normalizeOrder parts)[i]? = some ⟨c, if d = "asc" then 1 else -1⟩)
    ∧ (∀ (parts : List OrderPart) (i : ℕ) (s : String),
        parts[i]? = some (.field s) →
        (normalizeOrder parts)[i]? = some ⟨s, 1⟩)
    ∧ normalizeOrder [.pair "a" "ascending"] = [⟨"a", -1⟩]
    ∧ normalizeOrder [.pair "a" "asc"] = [⟨"a", 1⟩]
    ∧ normalizeOrder [.field "a"] = [⟨"a", 1⟩]
    ∧ order [("k1", [("a", 1)]), ("k2", [("a", 2)])] [.pair "a" "ascending"]
        = [("k2", [("a", 2)]), ("k1", [("a", 1)])]
    ∧ order [("k1", [("a", 1)]), ("k2", [("a", 2)])] [.field "a"]
        = [("k1", [("a", 1)]), ("k2", [("a", 2)])] := by
  refine ⟨?_, ?_, by decide, by decide, by decide, ?_, ?_⟩
  · intro parts i c d h
    rw [normalizeOrder, List.getElem?_map, h]
    rfl
  · intro parts i s h
    rw [normalizeOrder, List.getElem?_map, h]
    rfl
  · norm_num [order, List.mergeSort, List.merge, recordLe, cmpRecords,
      normalizeOrder, jsLtOpt, List.lookup]
    rw [if_neg (by decide)]
    norm_num
  · norm_num [order, List.mergeSort, List.merge, recordLe, cmpRecords,
      normalizeOrder, jsLtOpt, List.lookup]

/-- Witness for C10: the object-form conjunct applied at a concrete list with
direction string "ascending". -/
theorem normalizeOrder_asc_only_witness :
    (normalizeOrder [.field "x", .pair "geo" "ascending"])[1]?
      = some ⟨"geo", if "ascending" = "asc" then 1 else -1⟩ :=
  normalizeOrder_asc_only.1 [.field "x", .pair "geo" "ascending"] 1 "geo" "ascending" rfl

end Vizabi
